import Mathlib

/-! The script `support/package.js`: file enumeration, platform filter and NSIS
directive lists.

A shallow embedding of the packaging script `support/package.js`:

* `removeNodeBuilds` (lines 253-261) and the filter at the head of
  `generateNSISScript` (lines 55-62),
* the directive loop of `generateNSISScript` (lines 66-85),
* `findFilesToPackage` with its exit handler `returnFileList` (lines 107-160).

A JavaScript string is modelled as the list of its UTF-16 code units, so that
`length`, indexing, `indexOf`, `split`, `replace` and the default `sort` order
are the ones of the language.
-/

namespace Package

/-! ## JavaScript strings -/

/-- A JavaScript string: the sequence of its UTF-16 code units. -/
abbrev Str := List Nat

/-- The code units of an ASCII literal of the source text. -/
def js (s : String) : Str := s.toList.map Char.toNat

/-- A JavaScript value as returned by the filter callbacks of the script:
`undefined` (a bare `return;`) or a string. -/
inductive Value where
  | undefined : Value
  | str : Str → Value
deriving DecidableEq, Repr

/-- ToBoolean: `undefined` is falsy, a string is truthy unless it is empty. -/
def Value.truthy : Value → Bool
  | Value.undefined => false
  | Value.str s => !s.isEmpty

/-- ToBoolean on a number: every integer but `0` is truthy. -/
def truthyNum (x : Int) : Bool := decide (x ≠ 0)

/-- The operator `~x` on an integer in the int32 range: `-(x + 1)`. -/
def bitNot (x : Int) : Int := -x - 1

/-- The search loop of `String.prototype.indexOf`: position `k` is the index of
the head of the remaining text. -/
def indexOfFrom (search : Str) : Str → Nat → Int
  | [], k => if search = [] then (k : Int) else -1
  | c :: cs, k =>
    if search.isPrefixOf (c :: cs) then (k : Int) else indexOfFrom search cs (k + 1)

/-- The method `s.indexOf(search)`: the least index at which `search` occurs in
`s`, or `-1`. -/
def indexOf (s search : Str) : Int := indexOfFrom search s 0

/-- The method `Array.prototype.filter`: keeps the elements for which the
callback returns a truthy value. -/
def arrayFilter (callback : Str → Value) (xs : List Str) : List Str :=
  xs.filter (fun x => (callback x).truthy)

/-! ## The platform filter -/

/-- The function `removeNodeBuilds(files, platform)`, lines 253-261. -/
def removeNodeBuilds (files : List Str) (platform : Str) : List Str :=
  arrayFilter (fun file =>
    if truthyNum (bitNot (indexOf file (js "node-builds")))
        && !truthyNum (bitNot (indexOf file platform))
        && !truthyNum (bitNot (indexOf file (js "tmp")))
        && !truthyNum (bitNot (indexOf file (js "etc"))) then
      Value.undefined
    else
      Value.str file) files

/-- The reassignment `files = files.filter(...)` at the head of
`generateNSISScript`, lines 55-62. -/
def nsisFiles (files : List Str) : List Str :=
  arrayFilter (fun file =>
    -- Ignore node-builds for other platforms
    if truthyNum (bitNot (indexOf file (js "node-builds")))
        && !truthyNum (bitNot (indexOf file (js "win")))
        && !truthyNum (bitNot (indexOf file (js "tmp")))
        && !truthyNum (bitNot (indexOf file (js "etc"))) then
      Value.undefined
    else
      Value.str file) files

/-- The removal rule in the words of the specification: the path contains the
prebuilt-binaries marker and none of the platform keyword and the two
always-keep markers. -/
def OtherPlatformBuild (platform file : Str) : Prop :=
  js "node-builds" <:+: file ∧ ¬ platform <:+: file ∧ ¬ js "tmp" <:+: file ∧
    ¬ js "etc" <:+: file

instance (platform file : Str) : Decidable (OtherPlatformBuild platform file) := by
  unfold OtherPlatformBuild; infer_instance

/-! ## Library functions used by the directive loop -/

/-- The expression `s.replace(/\//g, '\\')`: every `/` (47) becomes `\` (92). -/
def replaceSlashes (s : Str) : Str := s.map (fun c => if c = 47 then 92 else c)

/-- The scan of `s.lastIndexOf(c)` for a one-character search string: `acc` is
the last index seen so far. -/
def lastIndexOfFrom (c : Nat) : Str → Nat → Int → Int
  | [], _, acc => acc
  | x :: xs, k, acc => lastIndexOfFrom c xs (k + 1) (if x = c then (k : Int) else acc)

/-- The method `s.lastIndexOf(c)` for a one-character search string. -/
def lastIndexOf (s : Str) (c : Nat) : Int := lastIndexOfFrom c s 0 (-1)

/-- The expression `path.replace(/\/+$/, '')`: drops the trailing slashes. -/
def stripTrailingSlashes (p : Str) : Str :=
  (p.reverse.dropWhile (fun c => decide (c = 47))).reverse

/-- Node's `path.dirname` on POSIX paths (the library routine of the Node
release the script targets): trailing slashes are dropped, then the text before
the last `/` is returned, `.` when there is no slash and `/` when the only slash
leads the path. The theorems below use it as a black box; only the closed
examples evaluate it, on plain relative paths. -/
def dirname (path : Str) : Str :=
  let path :=
    if path.length > 1 && path.getLast? == some 47 then stripTrailingSlashes path else path
  let lastSlash := lastIndexOf path 47
  if lastSlash = -1 then js "."
  else if lastSlash = 0 then js "/"
  else path.take lastSlash.toNat

/-- Code units the regular-expression atom `.` does not match: the line
terminators LF, CR, U+2028 and U+2029. -/
def isLineTerminator (c : Nat) : Bool :=
  c == 10 || c == 13 || c == 0x2028 || c == 0x2029

/-- The tail `(.md)?$` of the pattern, tried at the text `r`: the greedy branch
consumes one non-terminator followed by `md` and must then be at the end;
otherwise the group is skipped and `r` itself must be the end. -/
def matchTail (r : Str) : Bool :=
  (match r with
    | [c, 109, 100] => !isLineTerminator c
    | _ => false) || r.isEmpty

/-- The part `(README|LICENSE)(.md)?$` of the pattern, tried at the text `r`;
the result is capture group 1. -/
def matchWord (r : Str) : Option Str :=
  if (js "README").isPrefixOf r && matchTail (r.drop 6) then some (js "README")
  else if (js "LICENSE").isPrefixOf r && matchTail (r.drop 7) then some (js "LICENSE")
  else none

/-- The whole pattern `\/?(README|LICENSE)(.md)?$` tried at the start of `r`:
the optional slash is taken first and given back on failure. -/
def matchHere (r : Str) : Option Str :=
  match r with
  | 47 :: r' => (matchWord r').orElse (fun _ => matchWord r)
  | _ => matchWord r

/-- The call `file.match(/\/?(README|LICENSE)(.md)?$/)`: start positions are
tried from left to right; the result is `m[1]` of the first match, `none` for
`null`. -/
def matchReadme : Str → Option Str
  | [] => matchHere []
  | c :: cs => (matchHere (c :: cs)).orElse (fun _ => matchReadme cs)

/-! ## The directive loop of `generateNSISScript` -/

/-- The accumulators of the loop of `generateNSISScript`: the three growing
strings and the directory of the previous file (`none` for `undefined`). -/
structure DirectiveBlock where
  installFileList : Str
  removeFileList : Str
  removeDirList : Str
  prevDirname : Option Str
deriving DecidableEq, Repr

/-- One iteration of the loop, lines 68-84. -/
def directiveStep (b : DirectiveBlock) (file : Str) : DirectiveBlock :=
  let dirname := dirname file
  let b :=
    if some dirname ≠ b.prevDirname then
      { b with
        prevDirname := some dirname
        installFileList :=
          b.installFileList ++ (js "  SetOutPath \"$INSTDIR\\" ++ replaceSlashes dirname ++ js "\"\n")
        removeDirList :=
          b.removeDirList ++ (js "  RMDir \"$INSTDIR\\" ++ replaceSlashes dirname ++ js "\"\n") }
    else b
  let b :=
    match matchReadme file with
    | some m1 =>
      -- Rename README and LICENSE so they end in .txt
      { b with
        installFileList :=
          b.installFileList ++ (js "  File /oname=" ++ m1 ++ js ".txt \"$\x7bROOT_PATH\x7d\\"
            ++ replaceSlashes file ++ js "\"\n") }
    | none =>
      { b with
        installFileList :=
          b.installFileList ++ (js "  File \"$\x7bROOT_PATH\x7d\\" ++ replaceSlashes file ++ js "\"\n") }
  { b with
    removeFileList :=
      b.removeFileList ++ (js "  Delete \"$INSTDIR\\" ++ replaceSlashes file ++ js "\"\n") }

/-- The function `generateNSISScript(files, callback)` up to the three
directive strings handed to the template (lines 51-85); the template
substitution itself is a library call and is not modelled. -/
def generateNSISScript (files : List Str) : DirectiveBlock :=
  (nsisFiles files).foldl directiveStep
    { installFileList := js "  SetOverwrite try\n"
      removeFileList := []
      removeDirList := []
      prevDirname := none }

/-! ## The file enumerator -/

/-- The characters removed by `String.prototype.trim`: the white space and
line terminators of the language (TAB, VT, FF, SP, NBSP, BOM, the Unicode space
separators, LF, CR, U+2028, U+2029). -/
def isWhiteSpace (c : Nat) : Bool :=
  c == 9 || c == 10 || c == 11 || c == 12 || c == 13 || c == 32 || c == 160
    || c == 0x1680 || c == 0x180E || (decide (0x2000 ≤ c) && decide (c ≤ 0x200A))
    || c == 0x2028 || c == 0x2029 || c == 0x202F || c == 0x205F || c == 0x3000
    || c == 0xFEFF

/-- The method `s.trim()`. -/
def trim (s : Str) : Str :=
  ((s.dropWhile isWhiteSpace).reverse.dropWhile isWhiteSpace).reverse

/-- The method `s.split(sep)` for a one-character separator: the pieces of `s`
between the occurrences of `sep`; the empty string gives one empty piece. -/
def split (sep : Nat) : Str → List Str
  | [] => [[]]
  | c :: cs =>
    if c = sep then [] :: split sep cs
    else
      match split sep cs with
      | [] => [[c]]
      | piece :: pieces => (c :: piece) :: pieces

/-- The relational comparison `a < b` of two strings: code unit by code unit,
a proper prefix being smaller. -/
def strLt : Str → Str → Bool
  | [], [] => false
  | [], _ :: _ => true
  | _ :: _, [] => false
  | a :: as, b :: bs => if a < b then true else if b < a then false else strLt as bs

/-- The method `Array.prototype.sort()` without comparator on an array of
strings: the elements in ascending `<` order of the language. Equal strings are
indistinguishable, so the result does not depend on the sorting algorithm of the
engine (`sort_unique` below); insertion sort is used as its representative. -/
def sort (xs : List Str) : List Str :=
  xs.insertionSort (fun a b => strLt b a = false)

/-- An exception thrown by a library call of the script and caught nowhere. -/
inductive Exception where
  /-- The call `fs.statSync(path)` failed, for instance because a listed path
  does not exist on disk; `file` is the listed path. -/
  | statSync (file : Str) : Exception
deriving DecidableEq, Repr

deriving instance DecidableEq for Except

/-- The method `Array.prototype.filter` with a callback that may throw: the
elements are visited from left to right, and the first exception ends the call
and is passed on to the caller. -/
def arrayFilterM (callback : Str → Except Exception Value) :
    List Str → Except Exception (List Str)
  | [] => Except.ok []
  | x :: xs =>
    match callback x with
    | Except.error e => Except.error e
    | Except.ok v =>
      match arrayFilterM callback xs with
      | Except.error e => Except.error e
      | Except.ok kept => Except.ok (if v.truthy then x :: kept else kept)

/-- The callback of the `filter` call in `returnFileList`, lines 137-155. The
oracle `stat file` stands for `fs.statSync(path.join(dir, file)).isDirectory()`:
`some b` when the call answers `b`, `none` when `fs.statSync` throws. -/
def listingCallback (stat : Str → Option Bool) (file : Str) : Except Exception Value :=
  -- Ignore entering submodule messages
  if indexOf file (js "Entering ") = 0 then Except.ok Value.undefined
  -- Ignore hidden and backup files
  else if (((split 47 file).getLast?.getD []).head? == some 46
      || file.getLast? == some 126) then Except.ok Value.undefined
  -- Submodules appear in ls-files but aren't files. Skip them
  else
    match stat file with
    | none => Except.error (Exception.statSync file)
    | some true => Except.ok Value.undefined
    | some false => Except.ok (Value.str file)

/-- The lines of the combined listing,
`(mainFileList.trim() + '\n' + subFileList.trim()).split('\n')`. -/
def listingLines (mainFileList subFileList : Str) : List Str :=
  split 10 (trim mainFileList ++ js "\n" ++ trim subFileList)

/-- The state shared by the two exit handlers of `findFilesToPackage`: the two
captured outputs and the counter `lsCount`. -/
structure ListingState where
  mainFileList : Str
  subFileList : Str
  lsCount : Nat
deriving DecidableEq, Repr

set_option linter.unusedVariables false in
/-- The exit handler `returnFileList(code)`, lines 129-158: the new state and
the list of the calls made to `callback` (none on the first exit, one on the
second), or the exception that leaves the handler. -/
def returnFileList (stat : Str → Option Bool) (st : ListingState) (code : Int) :
    Except Exception (ListingState × List (List Str)) :=
  let st := { st with lsCount := st.lsCount + 1 }
  if st.lsCount < 2 then Except.ok (st, [])
  else
    match arrayFilterM (listingCallback stat) (listingLines st.mainFileList st.subFileList) with
    | Except.error e => Except.error e
    | Except.ok kept =>
      let fileList := sort kept
      Except.ok (st, [fileList])

/-- The function `findFilesToPackage(dir, callback)` as a function of what the
two listing subprocesses deliver: their captured outputs, and their exit codes
in the order in which the two `exit` events arrive. The result is the list of
the file lists handed to `callback` (the function itself returns nothing), or
the exception that escapes from an exit handler, after which `callback` is
never called. -/
def findFilesToPackage (stat : Str → Option Bool) (mainOut subOut : Str)
    (code₁ code₂ : Int) : Except Exception (List (List Str)) :=
  let st₀ : ListingState := { mainFileList := mainOut, subFileList := subOut, lsCount := 0 }
  match returnFileList stat st₀ code₁ with
  | Except.error e => Except.error e
  | Except.ok (st₁, calls₁) =>
    match returnFileList stat st₁ code₂ with
    | Except.error e => Except.error e
    | Except.ok (_, calls₂) => Except.ok (calls₁ ++ calls₂)

/-! ## The directives written by the loop -/

/-- One directive line of the generated script, with the text the loop puts
between its fixed parts. -/
inductive Directive where
  /-- The line `  SetOutPath "$INSTDIR\<dir>"`. -/
  | setOutPath (dir : Str) : Directive
  /-- The line `  File "${ROOT_PATH}\<source>"`, with `/oname=<name>.txt` before the
  source when the file is renamed. -/
  | file (oname : Option Str) (source : Str) : Directive
  /-- The line `  Delete "$INSTDIR\<path>"`. -/
  | delete (path : Str) : Directive
  /-- The line `  RMDir "$INSTDIR\<dir>"`. -/
  | rmDir (dir : Str) : Directive
deriving DecidableEq, Repr

/-- The text of a directive, as the loop appends it. -/
def Directive.render : Directive → Str
  | Directive.setOutPath dir => js "  SetOutPath \"$INSTDIR\\" ++ dir ++ js "\"\n"
  | Directive.file (some name) source =>
    js "  File /oname=" ++ name ++ js ".txt \"$\x7bROOT_PATH\x7d\\" ++ source ++ js "\"\n"
  | Directive.file none source => js "  File \"$\x7bROOT_PATH\x7d\\" ++ source ++ js "\"\n"
  | Directive.delete path => js "  Delete \"$INSTDIR\\" ++ path ++ js "\"\n"
  | Directive.rmDir dir => js "  RMDir \"$INSTDIR\\" ++ dir ++ js "\"\n"

/-- The path a directive refers to. -/
def Directive.path : Directive → Str
  | Directive.setOutPath dir => dir
  | Directive.file _ source => source
  | Directive.delete path => path
  | Directive.rmDir dir => dir

/-- The text of a sequence of directives. -/
def renderAll (ds : List Directive) : Str := ds.flatMap Directive.render

/-- The directories of the `SetOutPath` directives of a sequence, in order. -/
def setOutPathDirs (ds : List Directive) : List Str :=
  ds.filterMap (fun d => match d with
    | Directive.setOutPath dir => some dir
    | _ => none)

/-- The `File` directives of a sequence, in order. -/
def fileDirectives (ds : List Directive) : List Directive :=
  ds.filter (fun d => match d with
    | Directive.file _ _ => true
    | _ => false)

/-- The directives appended to `installFileList` while the loop runs over
`files`, starting with previous directory `prev`. -/
def installDirectives : Option Str → List Str → List Directive
  | _, [] => []
  | prev, file :: files =>
    (if some (dirname file) ≠ prev then [Directive.setOutPath (replaceSlashes (dirname file))]
      else [])
    ++ Directive.file (matchReadme file) (replaceSlashes file)
      :: installDirectives (some (dirname file)) files

/-- The directives appended to `removeDirList` while the loop runs over `files`,
starting with previous directory `prev`. -/
def removeDirDirectives : Option Str → List Str → List Directive
  | _, [] => []
  | prev, file :: files =>
    (if some (dirname file) ≠ prev then [Directive.rmDir (replaceSlashes (dirname file))]
      else [])
    ++ removeDirDirectives (some (dirname file)) files

/-- The directives appended to `removeFileList` while the loop runs over
`files`. -/
def removeFileDirectives (files : List Str) : List Directive :=
  files.map (fun file => Directive.delete (replaceSlashes file))

/-- The path of a directive is the translation of a file of `files` (for `File`
and `Delete`) or of the directory of one (for `SetOutPath` and `RMDir`). -/
def Directive.TranslatedFrom (files : List Str) : Directive → Prop
  | Directive.setOutPath dir => ∃ file ∈ files, dir = replaceSlashes (dirname file)
  | Directive.file _ source => ∃ file ∈ files, source = replaceSlashes file
  | Directive.delete path => ∃ file ∈ files, path = replaceSlashes file
  | Directive.rmDir dir => ∃ file ∈ files, dir = replaceSlashes (dirname file)

/-! ## Words of the specification for the file enumerator -/

/-- A hidden file: the last `/`-separated component of the path starts with `.`
(46). The component is the text after the last `/`, or the whole path. -/
def HiddenFile (line : Str) : Prop :=
  ∃ pre comp : Str, line = pre ++ 46 :: comp ∧ 47 ∉ comp ∧ (pre = [] ∨ pre.getLast? = some 47)

/-- A backup file: the last character of the path is `~` (126). -/
def BackupFile (line : Str) : Prop := line.getLast? = some 126

/-- Ascending lexicographic order on strings: no later entry is
lexicographically smaller than an earlier one. -/
def Ascending (l : List Str) : Prop :=
  l.Sorted (fun a b => ¬ List.Lex (· < ·) b a)

/-- A line of the listing that gets as far as the directory test of the
callback: it is no submodule message, no hidden file and no backup file. -/
def ReachesStat (line : Str) : Prop :=
  ¬ js "Entering " <+: line ∧ ¬ HiddenFile line ∧ ¬ BackupFile line

/-- The verdict of the listing callback on a line, as a truth value: whether
the callback returns a truthy value for it. -/
def listingKeeps (stat : Str → Option Bool) (line : Str) : Bool :=
  match listingCallback stat line with
  | Except.ok v => v.truthy
  | Except.error _ => false

/-! ## Facts about `indexOf` and the platform filter -/

theorem indexOfFrom_ne_neg_one (search : Str) :
    ∀ (s : Str) (k : Nat), indexOfFrom search s k ≠ -1 ↔ search <:+: s := by
  intro s
  induction s with
  | nil =>
    intro k
    by_cases h : search = []
    · subst h
      simp only [indexOfFrom, if_true, List.infix_nil, iff_true]
      omega
    · simp [indexOfFrom, h]
  | cons c cs ih =>
    intro k
    by_cases h : search.isPrefixOf (c :: cs) = true
    · have hp : search <+: c :: cs := List.isPrefixOf_iff_prefix.mp h
      simp only [indexOfFrom, h, if_true]
      constructor
      · intro _; exact hp.isInfix
      · intro _; omega
    · have hp : ¬ search <+: c :: cs := fun hp => h (List.isPrefixOf_iff_prefix.mpr hp)
      have e : indexOfFrom search (c :: cs) k = indexOfFrom search cs (k + 1) := by
        simp only [indexOfFrom, h]; rfl
      rw [e, ih (k + 1), List.infix_cons_iff]
      simp [hp]

/-- The test `~s.indexOf(search)` is truthy exactly when `search` occurs in `s`. -/
theorem truthy_bitNot_indexOf (s search : Str) :
    truthyNum (bitNot (indexOf s search)) = true ↔ search <:+: s := by
  rw [← indexOfFrom_ne_neg_one search s 0]
  unfold truthyNum bitNot indexOf
  simp only [decide_eq_true_eq]
  omega

/-- On arbitrary strings the callback also drops the empty string, which it
returns as a falsy value; the listed paths are never empty
(`findFilesToPackage_paths_ne_nil`). -/
theorem removeNodeBuilds_eq_filter (files : List Str) (platform : Str) :
    removeNodeBuilds files platform
      = files.filter (fun file => decide (file ≠ [] ∧ ¬ OtherPlatformBuild platform file)) := by
  unfold removeNodeBuilds arrayFilter
  apply List.filter_congr
  intro file _
  by_cases hb : OtherPlatformBuild platform file
  · have hb' := hb
    obtain ⟨h1, h2, h3, h4⟩ := hb'
    have e1 := (truthy_bitNot_indexOf file (js "node-builds")).mpr h1
    have e2 : truthyNum (bitNot (indexOf file platform)) = false := by
      rw [Bool.eq_false_iff]; exact fun h => h2 ((truthy_bitNot_indexOf _ _).mp h)
    have e3 : truthyNum (bitNot (indexOf file (js "tmp"))) = false := by
      rw [Bool.eq_false_iff]; exact fun h => h3 ((truthy_bitNot_indexOf _ _).mp h)
    have e4 : truthyNum (bitNot (indexOf file (js "etc"))) = false := by
      rw [Bool.eq_false_iff]; exact fun h => h4 ((truthy_bitNot_indexOf _ _).mp h)
    simp [e1, e2, e3, e4, hb, Value.truthy]
  · have hc : (truthyNum (bitNot (indexOf file (js "node-builds")))
        && !truthyNum (bitNot (indexOf file platform))
        && !truthyNum (bitNot (indexOf file (js "tmp")))
        && !truthyNum (bitNot (indexOf file (js "etc")))) = false := by
      rw [Bool.eq_false_iff]
      intro h
      simp only [Bool.and_eq_true, Bool.not_eq_true', ← Bool.not_eq_true,
        truthy_bitNot_indexOf] at h
      exact hb ⟨h.1.1.1, h.1.1.2, h.1.2, h.2⟩
    show (if _ then Value.undefined else Value.str file).truthy = _
    rw [hc]
    cases file <;> simp [hb, Value.truthy]

/-- C1: for every list of paths (a path is a non-empty string) and every
platform keyword, `removeNodeBuilds(files, platform)` is `files`, in the
original order, without exactly the entries that contain `node-builds` and none
of `platform`, `tmp` and `etc`; every other entry is kept. -/
theorem removeNodeBuilds_spec (files : List Str) (platform : Str)
    (hpaths : ∀ file ∈ files, file ≠ []) :
    removeNodeBuilds files platform
        = files.filter (fun file => decide (¬ OtherPlatformBuild platform file))
      ∧ (removeNodeBuilds files platform).Sublist files
      ∧ ∀ file, file ∈ removeNodeBuilds files platform ↔
          file ∈ files ∧ ¬ OtherPlatformBuild platform file := by
  have h : removeNodeBuilds files platform
      = files.filter (fun file => decide (¬ OtherPlatformBuild platform file)) := by
    rw [removeNodeBuilds_eq_filter]
    apply List.filter_congr
    intro file hfile
    simp [hpaths file hfile]
  refine ⟨h, ?_, ?_⟩
  · rw [h]; exact List.filter_sublist _
  · intro file
    rw [h]
    simp [List.mem_filter]

/-- C1 at a list with builds for two platforms, a staging file and a plain
file, filtered for `osx`. -/
theorem removeNodeBuilds_spec_witness :
    (∀ file ∈ [js "README", js "node-builds/osx/node", js "node-builds/win/node.exe",
        js "node-builds/tmp/x"], file ≠ [])
      ∧ removeNodeBuilds [js "README", js "node-builds/osx/node", js "node-builds/win/node.exe",
          js "node-builds/tmp/x"] (js "osx")
        = [js "README", js "node-builds/osx/node", js "node-builds/win/node.exe",
            js "node-builds/tmp/x"].filter
            (fun file => decide (¬ OtherPlatformBuild (js "osx") file)) :=
  ⟨by decide, (removeNodeBuilds_spec _ (js "osx") (by decide)).1⟩

/-- C8: the list `generateNSISScript` iterates over is
`removeNodeBuilds(files, 'win')`. -/
theorem nsisFiles_eq_removeNodeBuilds_win (files : List Str) :
    nsisFiles files = removeNodeBuilds files (js "win")
      ∧ generateNSISScript files
          = (removeNodeBuilds files (js "win")).foldl directiveStep
              { installFileList := js "  SetOverwrite try\n"
                removeFileList := []
                removeDirList := []
                prevDirname := none } := by
  have h : nsisFiles files = removeNodeBuilds files (js "win") := rfl
  exact ⟨h, by rw [← h]; rfl⟩

/-- C9: `removeNodeBuilds` is idempotent for every list and platform keyword. -/
theorem removeNodeBuilds_idempotent (files : List Str) (platform : Str) :
    removeNodeBuilds (removeNodeBuilds files platform) platform
      = removeNodeBuilds files platform := by
  unfold removeNodeBuilds arrayFilter
  rw [List.filter_filter]
  apply List.filter_congr
  intro file _
  simp

/-! ## Facts about the directive loop -/

theorem renderAll_append (ds es : List Directive) :
    renderAll (ds ++ es) = renderAll ds ++ renderAll es := by
  simp [renderAll]

theorem directiveStep_prevDirname (b : DirectiveBlock) (file : Str) :
    (directiveStep b file).prevDirname = some (dirname file) := by
  unfold directiveStep
  by_cases h : some (dirname file) = b.prevDirname
  · cases hm : matchReadme file <;> simp [h, hm]
  · cases hm : matchReadme file <;> simp [h, hm]

theorem directiveStep_installFileList (b : DirectiveBlock) (file : Str) :
    (directiveStep b file).installFileList
      = b.installFileList ++ renderAll (installDirectives b.prevDirname [file]) := by
  unfold directiveStep
  by_cases h : some (dirname file) = b.prevDirname
  · cases hm : matchReadme file <;>
      simp [h, hm, installDirectives, renderAll, Directive.render]
  · cases hm : matchReadme file <;>
      simp [h, hm, installDirectives, renderAll, Directive.render]

theorem directiveStep_removeDirList (b : DirectiveBlock) (file : Str) :
    (directiveStep b file).removeDirList
      = b.removeDirList ++ renderAll (removeDirDirectives b.prevDirname [file]) := by
  unfold directiveStep
  by_cases h : some (dirname file) = b.prevDirname
  · cases hm : matchReadme file <;>
      simp [h, hm, removeDirDirectives, renderAll, Directive.render]
  · cases hm : matchReadme file <;>
      simp [h, hm, removeDirDirectives, renderAll, Directive.render]

theorem directiveStep_removeFileList (b : DirectiveBlock) (file : Str) :
    (directiveStep b file).removeFileList
      = b.removeFileList ++ renderAll (removeFileDirectives [file]) := by
  unfold directiveStep
  by_cases h : some (dirname file) = b.prevDirname
  · cases hm : matchReadme file <;>
      simp [h, hm, removeFileDirectives, renderAll, Directive.render]
  · cases hm : matchReadme file <;>
      simp [h, hm, removeFileDirectives, renderAll, Directive.render]

theorem installDirectives_cons (prev : Option Str) (file : Str) (files : List Str) :
    installDirectives prev (file :: files)
      = installDirectives prev [file] ++ installDirectives (some (dirname file)) files := by
  simp [installDirectives]

theorem removeDirDirectives_cons (prev : Option Str) (file : Str) (files : List Str) :
    removeDirDirectives prev (file :: files)
      = removeDirDirectives prev [file] ++ removeDirDirectives (some (dirname file)) files := by
  simp [removeDirDirectives]

/-- The three strings built by the loop are the renderings of the three
directive sequences, appended to the initial strings. -/
theorem foldl_directiveStep (files : List Str) :
    ∀ b : DirectiveBlock,
      (files.foldl directiveStep b).installFileList
          = b.installFileList ++ renderAll (installDirectives b.prevDirname files)
        ∧ (files.foldl directiveStep b).removeFileList
          = b.removeFileList ++ renderAll (removeFileDirectives files)
        ∧ (files.foldl directiveStep b).removeDirList
          = b.removeDirList ++ renderAll (removeDirDirectives b.prevDirname files) := by
  induction files with
  | nil => intro b; simp [installDirectives, removeFileDirectives, removeDirDirectives, renderAll]
  | cons file files ih =>
    intro b
    obtain ⟨h1, h2, h3⟩ := ih (directiveStep b file)
    rw [List.foldl_cons, h1, h2, h3, directiveStep_prevDirname,
      directiveStep_installFileList, directiveStep_removeFileList,
      directiveStep_removeDirList, installDirectives_cons b.prevDirname file files,
      removeDirDirectives_cons b.prevDirname file files, renderAll_append, renderAll_append]
    refine ⟨by simp, ?_, by simp⟩
    have e : removeFileDirectives (file :: files)
        = removeFileDirectives [file] ++ removeFileDirectives files := by
      simp [removeFileDirectives]
    rw [e, renderAll_append]
    simp

theorem setOutPathDirs_cons_file (oname : Option Str) (source : Str) (ds : List Directive) :
    setOutPathDirs (Directive.file oname source :: ds) = setOutPathDirs ds := by
  simp [setOutPathDirs]

theorem setOutPathDirs_cons_setOutPath (dir : Str) (ds : List Directive) :
    setOutPathDirs (Directive.setOutPath dir :: ds) = dir :: setOutPathDirs ds := by
  simp [setOutPathDirs]

theorem setOutPathDirs_installDirectives_some (files : List Str) :
    ∀ d : Str, replaceSlashes d :: setOutPathDirs (installDirectives (some d) files)
      = ((files.map dirname).destutter' (· ≠ ·) d).map replaceSlashes := by
  induction files with
  | nil => intro d; simp [installDirectives, setOutPathDirs, List.destutter']
  | cons file files ih =>
    intro d
    by_cases h : dirname file = d
    · subst h
      simp only [installDirectives, ne_eq, not_true_eq_false, if_false, List.nil_append,
        setOutPathDirs_cons_file, List.map_cons, List.destutter', ih]
    · have h' : d ≠ dirname file := fun e => h e.symm
      simp only [installDirectives, ne_eq, Option.some.injEq, h, not_false_eq_true, if_true,
        List.singleton_append, setOutPathDirs_cons_file, setOutPathDirs_cons_setOutPath,
        List.map_cons, List.destutter', h', ih]

/-- The `SetOutPath` directives of a run of the loop: one per maximal block of
consecutive files with the same directory. -/
theorem setOutPathDirs_installDirectives (files : List Str) :
    setOutPathDirs (installDirectives none files)
      = ((files.map dirname).destutter (· ≠ ·)).map replaceSlashes := by
  cases files with
  | nil => simp [installDirectives, setOutPathDirs]
  | cons file files =>
    simp only [installDirectives, ne_eq, not_false_eq_true, if_true, reduceCtorEq,
      List.singleton_append, setOutPathDirs_cons_file, setOutPathDirs_cons_setOutPath,
      List.map_cons, List.destutter, setOutPathDirs_installDirectives_some]

theorem removeDirDirectives_some (files : List Str) :
    ∀ d : Str, Directive.rmDir (replaceSlashes d) :: removeDirDirectives (some d) files
      = ((files.map dirname).destutter' (· ≠ ·) d).map
          (fun d => Directive.rmDir (replaceSlashes d)) := by
  induction files with
  | nil => intro d; simp [removeDirDirectives, List.destutter']
  | cons file files ih =>
    intro d
    by_cases h : dirname file = d
    · subst h
      simp only [removeDirDirectives, ne_eq, not_true_eq_false, if_false, List.nil_append,
        List.map_cons, List.destutter', ih]
    · have h' : d ≠ dirname file := fun e => h e.symm
      simp only [removeDirDirectives, ne_eq, Option.some.injEq, h, not_false_eq_true, if_true,
        List.singleton_append, List.map_cons, List.destutter', h', ih]

/-- The `RMDir` directives of a run of the loop match its `SetOutPath`
directives. -/
theorem removeDirDirectives_none (files : List Str) :
    removeDirDirectives none files
      = ((files.map dirname).destutter (· ≠ ·)).map
          (fun d => Directive.rmDir (replaceSlashes d)) := by
  cases files with
  | nil => simp [removeDirDirectives]
  | cons file files =>
    simp only [removeDirDirectives, ne_eq, not_false_eq_true, if_true, reduceCtorEq,
      List.singleton_append, List.map_cons, List.destutter, removeDirDirectives_some]

theorem fileDirectives_installDirectives (files : List Str) :
    ∀ prev : Option Str, fileDirectives (installDirectives prev files)
      = files.map (fun file => Directive.file (matchReadme file) (replaceSlashes file)) := by
  induction files with
  | nil => intro prev; simp [installDirectives, fileDirectives]
  | cons file files ih =>
    intro prev
    have ih' := ih (some (dirname file))
    unfold fileDirectives at ih' ⊢
    by_cases h : some (dirname file) = prev
    · subst h
      simp [installDirectives, ih']
    · simp [installDirectives, h, ih']

theorem not_mem_replaceSlashes (s : Str) : 47 ∉ replaceSlashes s := by
  unfold replaceSlashes
  intro h
  obtain ⟨c, _, hc⟩ := List.mem_map.mp h
  by_cases e : c = 47
  · simp [e] at hc
  · simp [e] at hc

theorem mem_destutter'_iff (l : List Str) :
    ∀ (d x : Str), x ∈ l.destutter' (· ≠ ·) d ↔ x = d ∨ x ∈ l := by
  induction l with
  | nil => intro d x; simp [List.destutter']
  | cons h l ih =>
    intro d x
    by_cases e : d = h
    · subst e
      simp only [List.destutter', ne_eq, not_true_eq_false, if_false, ih, List.mem_cons]
      tauto
    · simp only [List.destutter', ne_eq, e, not_false_eq_true, if_true, List.mem_cons, ih]

theorem mem_destutter_iff (l : List Str) (x : Str) :
    x ∈ l.destutter (· ≠ ·) ↔ x ∈ l := by
  cases l with
  | nil => simp
  | cons h l => simp [List.destutter, mem_destutter'_iff]

theorem translatedFrom_mono {files files' : List Str} (h : ∀ f ∈ files, f ∈ files')
    (d : Directive) (hd : d.TranslatedFrom files) : d.TranslatedFrom files' := by
  cases d <;> (obtain ⟨f, hf, e⟩ := hd; exact ⟨f, h f hf, e⟩)

theorem installDirectives_translated (files : List Str) :
    ∀ (prev : Option Str), ∀ d ∈ installDirectives prev files, d.TranslatedFrom files := by
  induction files with
  | nil => intro prev d hd; simp [installDirectives] at hd
  | cons file files ih =>
    intro prev d hd
    have hmono : ∀ d : Directive, d.TranslatedFrom files → d.TranslatedFrom (file :: files) :=
      translatedFrom_mono (fun f hf => List.mem_cons_of_mem _ hf)
    simp only [installDirectives, List.mem_append, List.mem_cons] at hd
    rcases hd with hd | hd | hd
    · by_cases h : some (dirname file) = prev
      · simp [h] at hd
      · simp [h] at hd
        subst hd
        exact ⟨file, List.mem_cons_self _ _, rfl⟩
    · subst hd
      exact ⟨file, List.mem_cons_self _ _, rfl⟩
    · exact hmono d (ih _ d hd)

theorem removeDirDirectives_translated (files : List Str) :
    ∀ (prev : Option Str), ∀ d ∈ removeDirDirectives prev files, d.TranslatedFrom files := by
  induction files with
  | nil => intro prev d hd; simp [removeDirDirectives] at hd
  | cons file files ih =>
    intro prev d hd
    have hmono : ∀ d : Directive, d.TranslatedFrom files → d.TranslatedFrom (file :: files) :=
      translatedFrom_mono (fun f hf => List.mem_cons_of_mem _ hf)
    simp only [removeDirDirectives, List.mem_append] at hd
    rcases hd with hd | hd
    · by_cases h : some (dirname file) = prev
      · simp [h] at hd
      · simp [h] at hd
        subst hd
        exact ⟨file, List.mem_cons_self _ _, rfl⟩
    · exact hmono d (ih _ d hd)

theorem removeFileDirectives_translated (files : List Str) :
    ∀ d ∈ removeFileDirectives files, d.TranslatedFrom files := by
  intro d hd
  obtain ⟨f, hf, e⟩ := List.mem_map.mp hd
  subst e
  exact ⟨f, hf, rfl⟩

theorem translatedFrom_no_slash {files : List Str} {d : Directive}
    (hd : d.TranslatedFrom files) : 47 ∉ d.path := by
  cases d <;>
    (obtain ⟨f, _, e⟩ := hd
     simp only [Directive.path]
     rw [e]
     exact not_mem_replaceSlashes _)

/-- The three strings `generateNSISScript` builds, as renderings of directive
sequences over the files kept by its filter. -/
theorem generateNSISScript_render (files : List Str) :
    (generateNSISScript files).installFileList
        = js "  SetOverwrite try\n" ++ renderAll (installDirectives none (nsisFiles files))
      ∧ (generateNSISScript files).removeFileList
        = renderAll (removeFileDirectives (nsisFiles files))
      ∧ (generateNSISScript files).removeDirList
        = renderAll (removeDirDirectives none (nsisFiles files)) := by
  obtain ⟨h1, h2, h3⟩ := foldl_directiveStep (nsisFiles files)
    { installFileList := js "  SetOverwrite try\n"
      removeFileList := []
      removeDirList := []
      prevDirname := none }
  unfold generateNSISScript
  exact ⟨h1, by simpa using h2, by simpa using h3⟩

/-! ## Facts about the rename pattern -/

theorem js_README : js "README" = [82, 69, 65, 68, 77, 69] := by decide

theorem js_LICENSE : js "LICENSE" = [76, 73, 67, 69, 78, 83, 69] := by decide

theorem matchTail_iff (r : Str) :
    matchTail r = true ↔ r = [] ∨ ∃ c, isLineTerminator c = false ∧ r = [c, 109, 100] := by
  unfold matchTail
  match r with
  | [] => simp
  | [a] => simp
  | [a, b] => simp
  | [a, b, c] =>
    by_cases hb : b = 109
    · by_cases hc : c = 100
      · subst hb; subst hc; simp
      · simp [hc]
    · simp [hb]
  | a :: b :: c :: d :: r => simp

/-- What a path must look like for the pattern to match with capture `w`: the
path ends with `w`, or with `w`, one character that is no line terminator, and
`md`. -/
theorem matchWord_eq_some (r w : Str) (h : matchWord r = some w) :
    (w = js "README" ∨ w = js "LICENSE") ∧ ∃ tail, r = w ++ tail ∧ matchTail tail = true := by
  unfold matchWord at h
  by_cases h1 : ((js "README").isPrefixOf r && matchTail (r.drop 6)) = true
  · rw [if_pos h1] at h
    simp only [Option.some.injEq] at h
    subst h
    simp only [Bool.and_eq_true] at h1
    obtain ⟨t, ht⟩ := List.isPrefixOf_iff_prefix.mp h1.1
    refine ⟨Or.inl rfl, t, ht.symm, ?_⟩
    have : r.drop 6 = t := by rw [← ht, js_README]; rfl
    rw [← this]; exact h1.2
  · rw [if_neg h1] at h
    by_cases h2 : ((js "LICENSE").isPrefixOf r && matchTail (r.drop 7)) = true
    · rw [if_pos h2] at h
      simp only [Option.some.injEq] at h
      subst h
      simp only [Bool.and_eq_true] at h2
      obtain ⟨t, ht⟩ := List.isPrefixOf_iff_prefix.mp h2.1
      refine ⟨Or.inr rfl, t, ht.symm, ?_⟩
      have : r.drop 7 = t := by rw [← ht, js_LICENSE]; rfl
      rw [← this]; exact h2.2
    · rw [if_neg h2] at h
      exact absurd h (by simp)

theorem matchWord_of_append (w tail : Str) (hw : w = js "README" ∨ w = js "LICENSE")
    (ht : matchTail tail = true) : matchWord (w ++ tail) = some w := by
  rcases hw with hw | hw
  · subst hw
    have hp : (js "README").isPrefixOf (js "README" ++ tail) = true :=
      List.isPrefixOf_iff_prefix.mpr (List.prefix_append _ _)
    have hd : (js "README" ++ tail).drop 6 = tail := by rw [js_README]; rfl
    simp [matchWord, hp, hd, ht]
  · subst hw
    have hp : (js "LICENSE").isPrefixOf (js "LICENSE" ++ tail) = true :=
      List.isPrefixOf_iff_prefix.mpr (List.prefix_append _ _)
    have hn : (js "README").isPrefixOf (js "LICENSE" ++ tail) = false := by
      rw [js_README, js_LICENSE]; rfl
    have hd : (js "LICENSE" ++ tail).drop 7 = tail := by rw [js_LICENSE]; rfl
    simp [matchWord, hp, hn, hd, ht]

theorem matchHere_eq_some (r w : Str) (h : matchHere r = some w) :
    (w = js "README" ∨ w = js "LICENSE")
      ∧ ∃ pre tail, r = pre ++ w ++ tail ∧ matchTail tail = true := by
  have key : ∀ r' pre, r = pre ++ r' → matchWord r' = some w →
      (w = js "README" ∨ w = js "LICENSE")
        ∧ ∃ pre tail, r = pre ++ w ++ tail ∧ matchTail tail = true := by
    intro r' pre e hm
    obtain ⟨hw, tail, e', ht⟩ := matchWord_eq_some r' w hm
    exact ⟨hw, pre, tail, by rw [e, e', List.append_assoc], ht⟩
  unfold matchHere at h
  split at h
  · rename_i r'
    cases hm : matchWord r' with
    | some w' =>
      rw [hm] at h
      simp only [Option.orElse, Option.some.injEq] at h
      subst h
      exact key r' [47] rfl hm
    | none =>
      rw [hm] at h
      simp only [Option.orElse] at h
      exact key _ [] rfl h
  · exact key _ [] rfl h

theorem matchReadme_eq_some (w : Str) :
    ∀ file : Str, matchReadme file = some w →
      (w = js "README" ∨ w = js "LICENSE")
        ∧ ∃ pre tail, file = pre ++ w ++ tail ∧ matchTail tail = true := by
  intro file
  induction file with
  | nil => intro h; exact matchHere_eq_some [] w h
  | cons c cs ih =>
    intro h
    unfold matchReadme at h
    cases hm : matchHere (c :: cs) with
    | some w' =>
      rw [hm] at h
      simp only [Option.orElse, Option.some.injEq] at h
      subst h
      exact matchHere_eq_some _ _ hm
    | none =>
      rw [hm] at h
      simp only [Option.orElse] at h
      obtain ⟨hw, pre, tail, e, ht⟩ := ih h
      exact ⟨hw, c :: pre, tail, by rw [e]; simp, ht⟩

theorem suffix_word_unique (pre w tail pre' w' tail' : Str)
    (hw : w = js "README" ∨ w = js "LICENSE") (ht : matchTail tail = true)
    (hw' : w' = js "README" ∨ w' = js "LICENSE") (ht' : matchTail tail' = true)
    (e : pre ++ w ++ tail = pre' ++ w' ++ tail') : w = w' := by
  have er := congrArg List.reverse e
  simp only [List.reverse_append] at er
  rw [matchTail_iff] at ht ht'
  rcases hw with hw | hw <;> rcases hw' with hw' | hw' <;> subst hw <;> subst hw' <;>
    first
    | rfl
    | (exfalso
       rw [js_README, js_LICENSE] at er
       rcases ht with ht | ⟨c, _, ht⟩ <;> rcases ht' with ht' | ⟨c', _, ht'⟩ <;>
         subst ht <;> subst ht' <;> simp at er)

/-- The call `file.match(...)` succeeds with capture `w` exactly when `w` is
`README` or `LICENSE` and the path ends with `w`, or with `w`, one character
that is no line terminator, and `md`. Nothing is required of the text before
`w`. -/
theorem matchReadme_eq_some_iff (file w : Str) :
    matchReadme file = some w ↔
      (w = js "README" ∨ w = js "LICENSE")
        ∧ ∃ pre tail, file = pre ++ w ++ tail ∧ matchTail tail = true := by
  constructor
  · exact matchReadme_eq_some w file
  · rintro ⟨hw, pre, tail, e, ht⟩
    subst e
    induction pre with
    | nil =>
      have hm : matchWord (w ++ tail) = some w := matchWord_of_append w tail hw ht
      have hh : matchHere (w ++ tail) = some w := by
        rcases hw with hw | hw <;> subst hw
        · rw [js_README] at hm ⊢
          exact hm
        · rw [js_LICENSE] at hm ⊢
          exact hm
      rcases hw with hw | hw <;> subst hw
      · rw [js_README] at hh ⊢
        simp only [List.nil_append, List.cons_append]
        unfold matchReadme
        simp only [List.nil_append, List.cons_append] at hh
        rw [hh]; rfl
      · rw [js_LICENSE] at hh ⊢
        simp only [List.nil_append, List.cons_append]
        unfold matchReadme
        simp only [List.nil_append, List.cons_append] at hh
        rw [hh]; rfl
    | cons c pre ih =>
      simp only [List.cons_append]
      unfold matchReadme
      cases hm : matchHere (c :: (pre ++ w ++ tail)) with
      | none => simpa [Option.orElse, List.append_assoc] using ih
      | some w' =>
        obtain ⟨hw', pre', tail', e', ht'⟩ := matchHere_eq_some _ _ hm
        have : w = w' :=
          suffix_word_unique (c :: pre) w tail pre' w' tail' hw ht hw' ht'
            (by simpa using e')
        subst this
        simp only [List.append_assoc] at hm
        simp [Option.orElse, hm]

/-! ## The claims about `generateNSISScript` -/

/-- C2 (as amended): for every list of paths, sorted or not, `generateNSISScript`
writes one `SetOutPath` directive and one matching `RMDir` directive for each
maximal run of consecutive installed files with the same `path.dirname`, in list
order; consecutive directives name different directories and every directory of
an installed file is named at least once. For
`["docs/a/LICENSE", "docs/a/x.js", "docs/b/y.js"]` these are exactly two
`SetOutPath` directives. -/
theorem setOutPath_per_directory_run (files : List Str) :
    (generateNSISScript files).installFileList
        = js "  SetOverwrite try\n" ++ renderAll (installDirectives none (nsisFiles files))
      ∧ setOutPathDirs (installDirectives none (nsisFiles files))
        = (((nsisFiles files).map dirname).destutter (· ≠ ·)).map replaceSlashes
      ∧ (generateNSISScript files).removeDirList
        = renderAll ((((nsisFiles files).map dirname).destutter (· ≠ ·)).map
            (fun d => Directive.rmDir (replaceSlashes d)))
      ∧ (((nsisFiles files).map dirname).destutter (· ≠ ·)).Chain' (· ≠ ·)
      ∧ (∀ d, d ∈ ((nsisFiles files).map dirname).destutter (· ≠ ·)
          ↔ d ∈ (nsisFiles files).map dirname)
      ∧ setOutPathDirs (installDirectives none
          (nsisFiles [js "docs/a/LICENSE", js "docs/a/x.js", js "docs/b/y.js"]))
        = [js "docs\\a", js "docs\\b"] := by
  obtain ⟨h1, _, h3⟩ := generateNSISScript_render files
  refine ⟨h1, setOutPathDirs_installDirectives _, ?_, List.destutter_is_chain' _ _,
    fun d => mem_destutter_iff _ d, by decide⟩
  rw [h3, removeDirDirectives_none]

/-- C2 (as stated) fails: the list `a/x`, `a/y/z`, `a/z` is in sorted order, has
the two directories `a` and `a/y`, and gets three `SetOutPath` and three `RMDir`
directives, two of them for `a`. -/
theorem setOutPath_repeated_in_sorted_list :
    sort [js "a/x", js "a/y/z", js "a/z"] = [js "a/x", js "a/y/z", js "a/z"]
      ∧ [js "a/x", js "a/y/z", js "a/z"].map dirname = [js "a", js "a/y", js "a"]
      ∧ (generateNSISScript [js "a/x", js "a/y/z", js "a/z"]).installFileList
        = js ("  SetOverwrite try\n"
            ++ "  SetOutPath \"$INSTDIR\\a\"\n  File \"$\x7bROOT_PATH\x7d\\a\\x\"\n"
            ++ "  SetOutPath \"$INSTDIR\\a\\y\"\n  File \"$\x7bROOT_PATH\x7d\\a\\y\\z\"\n"
            ++ "  SetOutPath \"$INSTDIR\\a\"\n  File \"$\x7bROOT_PATH\x7d\\a\\z\"\n")
      ∧ (generateNSISScript [js "a/x", js "a/y/z", js "a/z"]).removeDirList
        = js ("  RMDir \"$INSTDIR\\a\"\n  RMDir \"$INSTDIR\\a\\y\"\n"
            ++ "  RMDir \"$INSTDIR\\a\"\n") := by
  decide!

/-- C10: for every list of paths, `generateNSISScript` writes exactly one `File`
directive and exactly one `Delete` directive per file kept by its filter, in
list order, and the path of every `SetOutPath`, `RMDir`, `File` and `Delete`
directive is the file or directory path with each `/` replaced by `\`, so that
no written path contains a `/`. -/
theorem one_file_and_one_delete_per_file (files : List Str) :
    (generateNSISScript files).installFileList
        = js "  SetOverwrite try\n" ++ renderAll (installDirectives none (nsisFiles files))
      ∧ (generateNSISScript files).removeFileList
        = renderAll (removeFileDirectives (nsisFiles files))
      ∧ (generateNSISScript files).removeDirList
        = renderAll (removeDirDirectives none (nsisFiles files))
      ∧ fileDirectives (installDirectives none (nsisFiles files))
        = (nsisFiles files).map
            (fun file => Directive.file (matchReadme file) (replaceSlashes file))
      ∧ removeFileDirectives (nsisFiles files)
        = (nsisFiles files).map (fun file => Directive.delete (replaceSlashes file))
      ∧ (∀ d ∈ installDirectives none (nsisFiles files)
            ++ removeFileDirectives (nsisFiles files)
            ++ removeDirDirectives none (nsisFiles files),
          d.TranslatedFrom (nsisFiles files) ∧ 47 ∉ d.path)
      ∧ (∀ (p : Str) (i : Nat),
          (replaceSlashes p)[i]? = (p[i]?).map (fun c => if c = 47 then 92 else c)) := by
  obtain ⟨h1, h2, h3⟩ := generateNSISScript_render files
  refine ⟨h1, h2, h3, fileDirectives_installDirectives _ none, rfl, ?_, ?_⟩
  · intro d hd
    have ht : d.TranslatedFrom (nsisFiles files) := by
      simp only [List.mem_append] at hd
      rcases hd with (hd | hd) | hd
      · exact installDirectives_translated _ none d hd
      · exact removeFileDirectives_translated _ d hd
      · exact removeDirDirectives_translated _ none d hd
    exact ⟨ht, translatedFrom_no_slash ht⟩
  · intro p i
    simp [replaceSlashes]

/-- C3: on `["docs/a/LICENSE", "docs/a/x.js", "docs/b/y.js"]` the script
installs `docs/a/LICENSE` as `LICENSE.txt`, while the `Delete` directive for it
names `docs\a\LICENSE`; no `Delete` directive names `docs\a\LICENSE.txt`. -/
theorem delete_names_original_file :
    (generateNSISScript [js "docs/a/LICENSE", js "docs/a/x.js", js "docs/b/y.js"]).installFileList
        = js ("  SetOverwrite try\n"
            ++ "  SetOutPath \"$INSTDIR\\docs\\a\"\n"
            ++ "  File /oname=LICENSE.txt \"$\x7bROOT_PATH\x7d\\docs\\a\\LICENSE\"\n"
            ++ "  File \"$\x7bROOT_PATH\x7d\\docs\\a\\x.js\"\n"
            ++ "  SetOutPath \"$INSTDIR\\docs\\b\"\n"
            ++ "  File \"$\x7bROOT_PATH\x7d\\docs\\b\\y.js\"\n")
      ∧ (generateNSISScript [js "docs/a/LICENSE", js "docs/a/x.js", js "docs/b/y.js"]).removeFileList
        = js ("  Delete \"$INSTDIR\\docs\\a\\LICENSE\"\n"
            ++ "  Delete \"$INSTDIR\\docs\\a\\x.js\"\n"
            ++ "  Delete \"$INSTDIR\\docs\\b\\y.js\"\n")
      ∧ removeFileDirectives (nsisFiles [js "docs/a/LICENSE", js "docs/a/x.js", js "docs/b/y.js"])
        = [Directive.delete (js "docs\\a\\LICENSE"), Directive.delete (js "docs\\a\\x.js"),
            Directive.delete (js "docs\\b\\y.js")] := by
  decide!

/-- C4: the pattern is anchored at the end of the path only, and its `.` stands
for any character: `UNLICENSE` and `docs/READMEzmd`, whose basenames are none of
`README`, `LICENSE`, `README.md`, `LICENSE.md`, are installed under the renamed
destinations `LICENSE.txt` and `README.txt`. -/
theorem rename_applies_to_other_basenames :
    (generateNSISScript [js "UNLICENSE"]).installFileList
        = js ("  SetOverwrite try\n  SetOutPath \"$INSTDIR\\.\"\n"
            ++ "  File /oname=LICENSE.txt \"$\x7bROOT_PATH\x7d\\UNLICENSE\"\n")
      ∧ (generateNSISScript [js "docs/READMEzmd"]).installFileList
        = js ("  SetOverwrite try\n  SetOutPath \"$INSTDIR\\docs\"\n"
            ++ "  File /oname=README.txt \"$\x7bROOT_PATH\x7d\\docs\\READMEzmd\"\n") := by
  decide!

/-! ## Facts about `split`, `sort` and the listing filter -/

theorem split_ne_nil (sep : Nat) (s : Str) : split sep s ≠ [] := by
  cases s with
  | nil => simp [split]
  | cons c cs =>
    by_cases h : c = sep
    · simp [split, h]
    · cases hs : split sep cs <;> simp [split, h, hs]

theorem split_of_not_mem (sep : Nat) (s : Str) (h : sep ∉ s) : split sep s = [s] := by
  induction s with
  | nil => simp [split]
  | cons c cs ih =>
    have hc : c ≠ sep := fun e => h (by simp [e])
    have hcs : sep ∉ cs := fun e => h (List.mem_cons_of_mem _ e)
    simp [split, hc, ih hcs]

theorem split_append_sep (sep : Nat) (a b : Str) :
    split sep (a ++ sep :: b) = split sep a ++ split sep b := by
  induction a with
  | nil => simp [split]
  | cons c cs ih =>
    by_cases h : c = sep
    · simp [split, h, ih]
    · cases hs : split sep cs with
      | nil => exact absurd hs (split_ne_nil sep cs)
      | cons piece pieces =>
        rw [hs] at ih
        simp [split, h, ih, hs]

/-- The last piece of `split` is the text after the last separator. -/
theorem split_getLast_of_decomposition (s pre comp : Str) (hs : s = pre ++ comp)
    (hcomp : 47 ∉ comp) (hpre : pre = [] ∨ pre.getLast? = some 47) :
    (split 47 s).getLast?.getD [] = comp := by
  subst hs
  rcases hpre with hpre | hpre
  · subst hpre
    simp [split_of_not_mem 47 comp hcomp]
  · obtain ⟨pre', e⟩ := List.getLast?_eq_some_iff.mp hpre
    subst e
    rw [List.append_assoc, List.singleton_append, split_append_sep,
      split_of_not_mem 47 comp hcomp]
    simp

theorem exists_last_component (s : Str) :
    ∃ pre comp : Str, s = pre ++ comp ∧ 47 ∉ comp ∧ (pre = [] ∨ pre.getLast? = some 47) := by
  induction s with
  | nil => exact ⟨[], [], rfl, by simp, Or.inl rfl⟩
  | cons c cs ih =>
    obtain ⟨pre, comp, e, hcomp, hpre⟩ := ih
    rcases hpre with hpre | hpre
    · subst hpre
      by_cases hc : c = 47
      · exact ⟨[c], comp, by simp [e], hcomp, Or.inr (by simp [hc])⟩
      · refine ⟨[], c :: cs, rfl, ?_, Or.inl rfl⟩
        simp only [List.nil_append] at e
        rw [e]
        simp only [List.mem_cons, not_or]
        exact ⟨fun h => hc h.symm, hcomp⟩
    · refine ⟨c :: pre, comp, by simp [e], hcomp, Or.inr ?_⟩
      obtain ⟨pre', e'⟩ := List.getLast?_eq_some_iff.mp hpre
      rw [e', ← List.cons_append]
      exact List.getLast?_concat _

/-- The hidden-file test of the callback agrees with `HiddenFile`. -/
theorem hidden_test_iff (file : Str) :
    ((split 47 file).getLast?.getD []).head? = some 46 ↔ HiddenFile file := by
  constructor
  · intro h
    obtain ⟨pre, comp, e, hcomp, hpre⟩ := exists_last_component file
    rw [split_getLast_of_decomposition file pre comp e hcomp hpre] at h
    cases comp with
    | nil => simp at h
    | cons c comp' =>
      simp only [List.head?_cons, Option.some.injEq] at h
      subst h
      exact ⟨pre, comp', e, fun hm => hcomp (List.mem_cons_of_mem _ hm), hpre⟩
  · rintro ⟨pre, comp, e, hcomp, hpre⟩
    have h46 : 47 ∉ (46 :: comp) := by
      simp only [List.mem_cons, not_or]
      exact ⟨by decide, hcomp⟩
    rw [split_getLast_of_decomposition file pre (46 :: comp) e h46 hpre]
    rfl

theorem indexOfFrom_range (search : Str) :
    ∀ (s : Str) (k : Nat), indexOfFrom search s k = -1 ∨ (k : Int) ≤ indexOfFrom search s k := by
  intro s
  induction s with
  | nil =>
    intro k
    by_cases h : search = []
    · simp [indexOfFrom, h]
    · simp [indexOfFrom, h]
  | cons c cs ih =>
    intro k
    by_cases h : search.isPrefixOf (c :: cs) = true
    · right; simp [indexOfFrom, h]
    · have e : indexOfFrom search (c :: cs) k = indexOfFrom search cs (k + 1) := by
        simp only [indexOfFrom, h]; rfl
      rw [e]
      rcases ih (k + 1) with h1 | h1
      · exact Or.inl h1
      · right; omega

/-- The test `s.indexOf(search) === 0` holds exactly when `s` starts with
`search`. -/
theorem indexOf_eq_zero_iff (s search : Str) : indexOf s search = 0 ↔ search <+: s := by
  unfold indexOf
  cases s with
  | nil =>
    by_cases h : search = []
    · simp [indexOfFrom, h]
    · simp [indexOfFrom, h]
  | cons c cs =>
    by_cases h : search.isPrefixOf (c :: cs) = true
    · have hp : search <+: c :: cs := List.isPrefixOf_iff_prefix.mp h
      simp [indexOfFrom, h, hp]
    · have hp : ¬ search <+: c :: cs := fun hp => h (List.isPrefixOf_iff_prefix.mpr hp)
      have e : indexOfFrom search (c :: cs) 0 = indexOfFrom search cs (0 + 1) := by
        simp only [indexOfFrom, h]; rfl
      rw [e]
      constructor
      · intro h0
        rcases indexOfFrom_range search cs (0 + 1) with h1 | h1 <;> omega
      · intro hp'; exact absurd hp' hp

theorem arrayFilterM_eq_ok (callback : Str → Except Exception Value) :
    ∀ (xs kept : List Str), arrayFilterM callback xs = Except.ok kept →
      kept = xs.filter (fun x => match callback x with
          | Except.ok v => v.truthy
          | Except.error _ => false)
        ∧ ∀ x ∈ xs, ∃ v, callback x = Except.ok v := by
  intro xs
  induction xs with
  | nil =>
    intro kept h
    simp only [arrayFilterM, Except.ok.injEq] at h
    subst h
    simp
  | cons x xs ih =>
    intro kept h
    unfold arrayFilterM at h
    cases hx : callback x with
    | error e => rw [hx] at h; exact absurd h (by simp)
    | ok v =>
      rw [hx] at h
      cases hr : arrayFilterM callback xs with
      | error e => rw [hr] at h; exact absurd h (by simp)
      | ok rest =>
        rw [hr] at h
        simp only [Except.ok.injEq] at h
        obtain ⟨h1, h2⟩ := ih rest hr
        refine ⟨?_, ?_⟩
        · rw [← h, List.filter_cons, hx, ← h1]
        · intro y hy
          rcases List.mem_cons.mp hy with e | hy'
          · subst e; exact ⟨v, hx⟩
          · exact h2 y hy'

theorem arrayFilterM_of_all_ok (callback : Str → Except Exception Value) :
    ∀ (xs : List Str), (∀ x ∈ xs, ∃ v, callback x = Except.ok v) →
      ∃ kept, arrayFilterM callback xs = Except.ok kept := by
  intro xs
  induction xs with
  | nil => intro _; exact ⟨[], rfl⟩
  | cons x xs ih =>
    intro h
    obtain ⟨v, hv⟩ := h x (List.mem_cons_self _ _)
    obtain ⟨rest, hrest⟩ := ih (fun y hy => h y (List.mem_cons_of_mem _ hy))
    exact ⟨if v.truthy then x :: rest else rest, by simp [arrayFilterM, hv, hrest]⟩

theorem arrayFilterM_error_mem (callback : Str → Except Exception Value) :
    ∀ (xs : List Str) (e : Exception), arrayFilterM callback xs = Except.error e →
      ∃ x ∈ xs, callback x = Except.error e := by
  intro xs
  induction xs with
  | nil => intro e h; simp [arrayFilterM] at h
  | cons x xs ih =>
    intro e h
    unfold arrayFilterM at h
    cases hx : callback x with
    | error e' =>
      rw [hx] at h
      simp only [Except.error.injEq] at h
      subst h
      exact ⟨x, List.mem_cons_self _ _, hx⟩
    | ok v =>
      rw [hx] at h
      cases hr : arrayFilterM callback xs with
      | error e' =>
        rw [hr] at h
        simp only [Except.error.injEq] at h
        subst h
        obtain ⟨y, hy, hye⟩ := ih e' hr
        exact ⟨y, List.mem_cons_of_mem _ hy, hye⟩
      | ok rest => rw [hr] at h; exact absurd h (by simp)

/-- When the callback of the listing filter throws: on a line that reaches the
directory test and for which `fs.statSync` fails. -/
theorem listingCallback_eq_error_iff (stat : Str → Option Bool) (file : Str) (e : Exception) :
    listingCallback stat file = Except.error e ↔
      ReachesStat file ∧ stat file = none ∧ e = Exception.statSync file := by
  unfold listingCallback ReachesStat BackupFile
  rw [← hidden_test_iff, ← indexOf_eq_zero_iff]
  by_cases h1 : indexOf file (js "Entering ") = 0
  · simp [h1]
  · by_cases h2 : ((split 47 file).getLast?.getD []).head? = some 46
    · simp [h1, h2]
    · by_cases h3 : file.getLast? = some 126
      · simp [h1, h2, h3]
      · cases h4 : stat file with
        | none =>
          have hb : (((split 47 file).getLast?.getD []).head? == some 46
              || file.getLast? == some 126) = false := by simp [h2, h3]
          simp only [h1, h2, h3, hb, if_false, Bool.false_eq_true, Except.error.injEq,
            not_false_eq_true, and_self, true_and]
          exact eq_comm
        | some b => cases b <;> simp [h1, h2, h3]

/-- What the callback of the listing filter keeps. -/
theorem listingKeeps_iff (stat : Str → Option Bool) (file : Str) :
    listingKeeps stat file = true ↔
      file ≠ [] ∧ ¬ js "Entering " <+: file ∧ ¬ HiddenFile file ∧ ¬ BackupFile file
        ∧ stat file = some false := by
  unfold listingKeeps listingCallback BackupFile
  rw [← hidden_test_iff, ← indexOf_eq_zero_iff]
  by_cases h1 : indexOf file (js "Entering ") = 0
  · simp [h1, Value.truthy]
  · by_cases h2 : ((split 47 file).getLast?.getD []).head? = some 46
    · simp [h1, h2, Value.truthy]
    · by_cases h3 : file.getLast? = some 126
      · simp [h1, h2, h3, Value.truthy]
      · cases h4 : stat file with
        | none => simp [h1, h2, h3, Value.truthy]
        | some b =>
          cases b
          · cases file <;> simp [h1, h2, h3, Value.truthy]
          · simp [h1, h2, h3, Value.truthy]

theorem strLt_iff_lex : ∀ a b : Str, strLt a b = true ↔ List.Lex (· < ·) a b := by
  intro a
  induction a with
  | nil =>
    intro b
    cases b with
    | nil => simp [strLt, List.Lex.not_nil_right]
    | cons y ys => simp [strLt, List.Lex.nil]
  | cons x xs ih =>
    intro b
    cases b with
    | nil => simp [strLt, List.Lex.not_nil_right]
    | cons y ys =>
      rcases Nat.lt_trichotomy x y with h | h | h
      · simp only [strLt, h, if_true, true_iff]
        exact List.Lex.rel h
      · subst h
        simp only [strLt, lt_self_iff_false, if_false, ih ys]
        exact (List.Lex.cons_iff).symm
      · have hn : ¬ x < y := by omega
        simp only [strLt, hn, if_false, h, if_true]
        constructor
        · intro hf; exact absurd hf (by simp)
        · intro hl
          cases hl with
          | cons hl' => omega
          | rel hr => omega

theorem strLe_total (a b : Str) : strLt b a = false ∨ strLt a b = false := by
  by_cases h : strLt b a = true
  · right
    rw [Bool.eq_false_iff]
    intro h'
    exact (List.Lex.isAsymm (· < ·)).asymm _ _ ((strLt_iff_lex _ _).mp h)
      ((strLt_iff_lex _ _).mp h')
  · left; simpa using h

theorem strLe_trans (a b c : Str) (hab : strLt b a = false) (hbc : strLt c b = false) :
    strLt c a = false := by
  rw [Bool.eq_false_iff, Ne, strLt_iff_lex] at *
  intro hca
  rcases (List.Lex.isTrichotomous (· < ·)).trichotomous a b with h | h | h
  · exact hbc (@IsTrans.trans _ (List.Lex (· < ·)) _ _ _ _ hca h)
  · subst h; exact hbc hca
  · exact hab h

theorem strLe_antisymm (a b : Str) (hab : strLt b a = false) (hba : strLt a b = false) :
    a = b := by
  rw [Bool.eq_false_iff, Ne, strLt_iff_lex] at *
  rcases (List.Lex.isTrichotomous (· < ·)).trichotomous a b with h | h | h
  · exact absurd h hba
  · exact h
  · exact absurd h hab

theorem sort_sorted (xs : List Str) : (sort xs).Sorted (fun a b => strLt b a = false) := by
  haveI : IsTotal Str (fun a b => strLt b a = false) := ⟨strLe_total⟩
  haveI : IsTrans Str (fun a b => strLt b a = false) := ⟨strLe_trans⟩
  exact List.sorted_insertionSort _ xs

theorem sort_perm (xs : List Str) : (sort xs).Perm xs :=
  List.perm_insertionSort _ xs

theorem sort_ascending (xs : List Str) : Ascending (sort xs) := by
  have h : (sort xs).Sorted (fun a b => strLt b a = false) := sort_sorted xs
  unfold Ascending
  refine List.Pairwise.imp ?_ h
  intro a b hab hlex
  rw [← strLt_iff_lex] at hlex
  rw [hlex] at hab
  exact absurd hab (by simp)

/-- The result of sorting does not depend on the algorithm: every ascending
rearrangement of `xs` is `sort xs`. -/
theorem sort_unique (xs ys : List Str) (hp : ys.Perm xs) (hs : Ascending ys) :
    ys = sort xs := by
  have h1 : ys.Sorted (fun a b => strLt b a = false) := by
    refine List.Pairwise.imp ?_ hs
    intro a b hab
    rw [Bool.eq_false_iff, Ne, strLt_iff_lex]
    exact hab
  have h2 : (sort xs).Sorted (fun a b => strLt b a = false) := sort_sorted xs
  haveI : IsAntisymm Str (fun a b => strLt b a = false) := ⟨strLe_antisymm⟩
  exact List.eq_of_perm_of_sorted (hp.trans (sort_perm xs).symm) h1 h2

/-- The outcome of `findFilesToPackage` in terms of the filter call: the
exception of the filter, or one call of `callback` with the sorted kept lines. -/
theorem findFilesToPackage_eq (stat : Str → Option Bool) (mainOut subOut : Str)
    (code₁ code₂ : Int) :
    findFilesToPackage stat mainOut subOut code₁ code₂
      = match arrayFilterM (listingCallback stat) (listingLines mainOut subOut) with
        | Except.error e => Except.error e
        | Except.ok kept => Except.ok [sort kept] := by
  simp only [findFilesToPackage, returnFileList]
  cases h : arrayFilterM (listingCallback stat) (listingLines mainOut subOut) <;> simp [h]

/-- A file list is handed over exactly when the filter call returns; it is then
the sorted list of the lines the callback keeps. -/
theorem findFilesToPackage_eq_ok_iff (stat : Str → Option Bool) (mainOut subOut : Str)
    (code₁ code₂ : Int) (calls : List (List Str)) :
    findFilesToPackage stat mainOut subOut code₁ code₂ = Except.ok calls ↔
      (∀ line ∈ listingLines mainOut subOut, ReachesStat line → stat line ≠ none)
        ∧ calls = [sort ((listingLines mainOut subOut).filter (listingKeeps stat))] := by
  rw [findFilesToPackage_eq]
  constructor
  · intro h
    cases hf : arrayFilterM (listingCallback stat) (listingLines mainOut subOut) with
    | error e => rw [hf] at h; exact absurd h (by simp)
    | ok kept =>
      rw [hf] at h
      simp only [Except.ok.injEq] at h
      obtain ⟨h1, h2⟩ := arrayFilterM_eq_ok _ _ _ hf
      refine ⟨?_, ?_⟩
      · intro line hline hreach hnone
        obtain ⟨v, hv⟩ := h2 line hline
        have := (listingCallback_eq_error_iff stat line (Exception.statSync line)).mpr
          ⟨hreach, hnone, rfl⟩
        rw [hv] at this
        exact absurd this (by simp)
      · rw [← h, h1]; rfl
  · rintro ⟨hstat, hcalls⟩
    have hall : ∀ x ∈ listingLines mainOut subOut, ∃ v, listingCallback stat x = Except.ok v := by
      intro x hx
      cases hc : listingCallback stat x with
      | ok v => exact ⟨v, rfl⟩
      | error e =>
        obtain ⟨hr, hn, _⟩ := (listingCallback_eq_error_iff stat x e).mp hc
        exact absurd hn (hstat x hx hr)
    obtain ⟨kept, hk⟩ := arrayFilterM_of_all_ok _ _ hall
    obtain ⟨h1, _⟩ := arrayFilterM_eq_ok _ _ _ hk
    rw [hk, hcalls, h1]
    rfl

/-- An exception escapes exactly when `fs.statSync` fails on a line that reaches
the directory test; it is the exception of such a line. -/
theorem findFilesToPackage_eq_error (stat : Str → Option Bool) (mainOut subOut : Str)
    (code₁ code₂ : Int) :
    (∃ line ∈ listingLines mainOut subOut, ReachesStat line ∧ stat line = none) ↔
      ∃ line ∈ listingLines mainOut subOut, ReachesStat line ∧ stat line = none
        ∧ findFilesToPackage stat mainOut subOut code₁ code₂
          = Except.error (Exception.statSync line) := by
  constructor
  · rintro ⟨line, hline, hreach, hnone⟩
    cases hr : findFilesToPackage stat mainOut subOut code₁ code₂ with
    | ok calls =>
      exact absurd hnone (((findFilesToPackage_eq_ok_iff _ _ _ _ _ _).mp hr).1 line hline hreach)
    | error e =>
      rw [findFilesToPackage_eq] at hr
      cases hf : arrayFilterM (listingCallback stat) (listingLines mainOut subOut) with
      | ok kept => rw [hf] at hr; exact absurd hr (by simp)
      | error e' =>
        rw [hf] at hr
        simp only [Except.error.injEq] at hr
        subst hr
        obtain ⟨x, hx, hxe⟩ := arrayFilterM_error_mem _ _ _ hf
        obtain ⟨h1, h2, h3⟩ := (listingCallback_eq_error_iff stat x e').mp hxe
        exact ⟨x, hx, h1, h2, by rw [h3]⟩
  · rintro ⟨line, hline, hreach, hnone, _⟩
    exact ⟨line, hline, hreach, hnone⟩

/-- The paths handed to the callback are never the empty string. -/
theorem findFilesToPackage_paths_ne_nil (stat : Str → Option Bool) (mainOut subOut : Str)
    (code₁ code₂ : Int) (calls : List (List Str))
    (h : findFilesToPackage stat mainOut subOut code₁ code₂ = Except.ok calls) :
    ∀ fileList ∈ calls, ∀ file ∈ fileList, file ≠ [] := by
  obtain ⟨_, hcalls⟩ := (findFilesToPackage_eq_ok_iff _ _ _ _ _ _).mp h
  subst hcalls
  intro fileList hl file hfile
  simp only [List.mem_singleton] at hl
  subst hl
  rw [(sort_perm _).mem_iff, List.mem_filter, listingKeeps_iff] at hfile
  exact hfile.2.1

/-! ## The claims about `findFilesToPackage` -/

/-- C5 (as amended): the exit codes of the two listing subprocesses are not
inspected. Nothing is handed to the callback at the first exit, and the outcome
of the second exit is the same whatever the two exit codes are: when
`fs.statSync` answers for every line that reaches the directory test, the
callback receives exactly one file list, the filtered and sorted lines of the
two captured outputs; when it throws for such a line, that exception escapes and
no list is handed over. -/
theorem findFilesToPackage_ignores_exit_codes (stat : Str → Option Bool)
    (mainOut subOut : Str) (code₁ code₂ : Int) :
    returnFileList stat { mainFileList := mainOut, subFileList := subOut, lsCount := 0 } code₁
        = Except.ok ({ mainFileList := mainOut, subFileList := subOut, lsCount := 1 }, [])
      ∧ findFilesToPackage stat mainOut subOut code₁ code₂
        = findFilesToPackage stat mainOut subOut 0 0
      ∧ ((∀ line ∈ listingLines mainOut subOut, ReachesStat line → stat line ≠ none) →
          findFilesToPackage stat mainOut subOut code₁ code₂
            = Except.ok [sort ((listingLines mainOut subOut).filter (listingKeeps stat))])
      ∧ ((∃ line ∈ listingLines mainOut subOut, ReachesStat line ∧ stat line = none) →
          ∃ line ∈ listingLines mainOut subOut, ReachesStat line ∧ stat line = none
            ∧ findFilesToPackage stat mainOut subOut code₁ code₂
              = Except.error (Exception.statSync line)) := by
  refine ⟨by simp [returnFileList], ?_, ?_, ?_⟩
  · rw [findFilesToPackage_eq, findFilesToPackage_eq]
  · intro hstat
    exact (findFilesToPackage_eq_ok_iff _ _ _ _ _ _).mpr ⟨hstat, rfl⟩
  · exact (findFilesToPackage_eq_error _ _ _ _ _).mp

/-- C5 (as stated) fails: with exit codes 1 and 0 (and with 0 and 1, and with 1
and 1) the callback still receives a file list, built from whatever was
captured. -/
theorem findFilesToPackage_nonzero_exit_still_lists :
    findFilesToPackage (fun _ => some false) (js "a.js\n") (js "") 1 0
        = Except.ok [[js "a.js"]]
      ∧ findFilesToPackage (fun _ => some false) (js "a.js\n") (js "") 0 1
        = Except.ok [[js "a.js"]]
      ∧ findFilesToPackage (fun _ => some false) (js "a.js\n") (js "") 1 1
        = Except.ok [[js "a.js"]] := by
  decide!

/-- C6 (as amended): for every pair of raw listing outputs and every answer of
`fs.statSync`: when it answers for every line that reaches the directory test,
the callback receives one list; when it throws for such a line, the exception
escapes and no list is handed over. A string is in a list handed over if and
only if it is a line of the combined listing that is non-empty, does not start
with `Entering `, is no hidden file (last `/`-separated component starting with
`.`), is no backup file (last character `~`) and is reported not to be a
directory; in particular no hidden file and no backup file is in it. -/
theorem findFilesToPackage_mem_iff (stat : Str → Option Bool) (mainOut subOut : Str)
    (code₁ code₂ : Int) :
    ((∀ line ∈ listingLines mainOut subOut, ReachesStat line → stat line ≠ none) →
        ∃ fileList, findFilesToPackage stat mainOut subOut code₁ code₂ = Except.ok [fileList])
      ∧ ((∃ line ∈ listingLines mainOut subOut, ReachesStat line ∧ stat line = none) →
        ∃ e, findFilesToPackage stat mainOut subOut code₁ code₂ = Except.error e)
      ∧ (∀ calls, findFilesToPackage stat mainOut subOut code₁ code₂ = Except.ok calls →
        ∃ fileList, calls = [fileList]
          ∧ (∀ line, line ∈ fileList ↔
              line ∈ listingLines mainOut subOut ∧ line ≠ [] ∧ ¬ js "Entering " <+: line
                ∧ ¬ HiddenFile line ∧ ¬ BackupFile line ∧ stat line = some false)
          ∧ (∀ line, HiddenFile line ∨ BackupFile line → line ∉ fileList)) := by
  refine ⟨?_, ?_, ?_⟩
  · intro hstat
    exact ⟨_, (findFilesToPackage_eq_ok_iff _ _ _ _ _ _).mpr ⟨hstat, rfl⟩⟩
  · intro h
    obtain ⟨line, _, _, _, he⟩ := (findFilesToPackage_eq_error stat _ _ code₁ code₂).mp h
    exact ⟨_, he⟩
  · intro calls h
    obtain ⟨_, hcalls⟩ := (findFilesToPackage_eq_ok_iff _ _ _ _ _ _).mp h
    refine ⟨_, hcalls, ?_, ?_⟩
    · intro line
      rw [(sort_perm _).mem_iff, List.mem_filter, listingKeeps_iff]
    · intro line hhb hmem
      rw [(sort_perm _).mem_iff, List.mem_filter, listingKeeps_iff] at hmem
      rcases hhb with hhb | hhb
      · exact hmem.2.2.2.1 hhb
      · exact hmem.2.2.2.2.1 hhb

/-- C6 (as stated) fails when a listed path is missing on disk: `ghost.js` is a
line of the listing, is non-empty, is no submodule message, no hidden file, no
backup file and no directory, and `a.js` is an ordinary file, yet no list is
handed over, because `fs.statSync` throws for `ghost.js`. -/
theorem findFilesToPackage_throws_on_missing_file :
    js "ghost.js" ∈ listingLines (js "a.js\nghost.js\n") (js "")
      ∧ js "ghost.js" ≠ []
      ∧ ¬ js "Entering " <+: js "ghost.js"
      ∧ ¬ HiddenFile (js "ghost.js")
      ∧ ¬ BackupFile (js "ghost.js")
      ∧ findFilesToPackage (fun file => if file = js "ghost.js" then none else some false)
          (js "a.js\nghost.js\n") (js "") 0 0
        = Except.error (Exception.statSync (js "ghost.js")) := by
  refine ⟨by decide!, by decide, by decide, ?_, ?_, by decide!⟩
  · intro h
    exact absurd ((hidden_test_iff _).mpr h) (by decide)
  · unfold BackupFile
    decide

/-- C7 (as amended): for every pair of raw listing outputs, every list handed to
the callback is in ascending lexicographic order and is a rearrangement of the
lines kept by the filter: a path occurs in it as often as it occurs among the
kept lines of the combined listing, so a path listed twice is returned twice.
A list is handed over whenever `fs.statSync` answers for every line that
reaches the directory test. -/
theorem findFilesToPackage_sorted_perm (stat : Str → Option Bool) (mainOut subOut : Str)
    (code₁ code₂ : Int) :
    ((∀ line ∈ listingLines mainOut subOut, ReachesStat line → stat line ≠ none) →
        ∃ fileList, findFilesToPackage stat mainOut subOut code₁ code₂ = Except.ok [fileList])
      ∧ (∀ calls, findFilesToPackage stat mainOut subOut code₁ code₂ = Except.ok calls →
        ∃ fileList, calls = [fileList]
          ∧ Ascending fileList
          ∧ fileList.Perm ((listingLines mainOut subOut).filter (listingKeeps stat))
          ∧ (∀ line, fileList.count line
              = ((listingLines mainOut subOut).filter (listingKeeps stat)).count line)
          ∧ (fileList.Nodup ↔
              ((listingLines mainOut subOut).filter (listingKeeps stat)).Nodup))
      ∧ (∀ line, listingKeeps stat line = true ↔
          line ≠ [] ∧ ¬ js "Entering " <+: line ∧ ¬ HiddenFile line ∧ ¬ BackupFile line
            ∧ stat line = some false) := by
  refine ⟨?_, ?_, listingKeeps_iff stat⟩
  · intro hstat
    exact ⟨_, (findFilesToPackage_eq_ok_iff _ _ _ _ _ _).mpr ⟨hstat, rfl⟩⟩
  · intro calls h
    obtain ⟨_, hcalls⟩ := (findFilesToPackage_eq_ok_iff _ _ _ _ _ _).mp h
    refine ⟨_, hcalls, sort_ascending _, sort_perm _, ?_, (sort_perm _).nodup_iff⟩
    intro line
    unfold List.count
    exact (sort_perm _).countP_eq _

/-- C7 (as stated) fails: a path that the raw listing names twice is returned
twice. -/
theorem findFilesToPackage_keeps_duplicates :
    findFilesToPackage (fun _ => some false) (js "README\nREADME\nlib/a.js\n") (js "") 0 0
        = Except.ok [[js "README", js "README", js "lib/a.js"]]
      ∧ ¬ [js "README", js "README", js "lib/a.js"].Nodup := by
  decide!

end Package
